import Mathlib

/-!
# Temperature conversion library and its two callers

Shallow embedding of

* `mylibrary/src/main/include/temperature.h` and `mylibrary/src/main/cpp/temperature.c`
  (the four conversions and `conversion`, the `sprintf` wrapper),
* `myapp/src/main/cpp/main.c` (the command-line entry point),
* `myapp/src/test/cpp/harness1.c` (the file-driven harness).

Conventions of the embedding.

* A C `double` is an IEEE 754 binary64 value, given by its three bit fields. The four
  operators `+ - * /` round the exact result to the nearest binary64, a tie going to the
  even significand, and overflow to an infinity; zeros are signed; a NaN operand is
  returned quieted, and an invalid operation gives the default NaN (sign bit set), as the
  SSE2 instructions of x86-64 do. A decimal constant of the source is the binary64
  nearest to it.
* Text is a `List Char`; a C string is the text before its terminating NUL, so a
  string of `n` characters occupies `n + 1` bytes.
* `sprintf` and `printf` are interpreted from their format strings, which are kept
  verbatim. Only the two directives the sources use are interpreted, `%lf` and `%s`.
  `%lf` prints the exact value of the binary64 rounded to six decimals, a tie going to
  the even digit, and `nan` or `inf` for the values that are no numbers, as glibc does.
* `sprintf` does no bounds checking. Storing more bytes than the destination array
  holds has no defined behaviour in C; a run in which that happens ends as
  `Ending.undefined`, and nothing is said about its output or exit code.
* `atof`, `open` and `read` belong to the C library and the operating system; the
  callers take their results as inputs.
-/

/-! ## Rounding primitives -/

/-- Two to the power `e`, as a rational. -/
def pow2 (e : ℤ) : ℚ :=
  if 0 ≤ e then ((2 ^ e.toNat : ℕ) : ℚ) else 1 / ((2 ^ (-e).toNat : ℕ) : ℚ)

/-- For `n ≥ 1`, the position of the leading bit of `n`; the first argument bounds the
number of halvings. -/
def log2Aux : ℕ → ℕ → ℕ
  | 0, _ => 0
  | fuel + 1, n => if n < 2 then 0 else log2Aux fuel (n / 2) + 1

/-- For `n ≥ 1`, the `r` with `2 ^ r ≤ n < 2 ^ (r + 1)`. -/
def natLog2 (n : ℕ) : ℕ :=
  log2Aux n n

/-- For `q > 0`, the integer `e` with `2 ^ e ≤ q < 2 ^ (e + 1)`. -/
def ilog2 (q : ℚ) : ℤ :=
  let e : ℤ := (natLog2 q.num.natAbs : ℤ) - (natLog2 q.den : ℤ)
  if pow2 e ≤ q then e else e - 1

/-- The integer nearest to `y ≥ 0`, a tie going to the even neighbour. -/
def roundEven (y : ℚ) : ℕ :=
  let f := ⌊y⌋₊
  let r := y - f
  if r < 1 / 2 then f else if 1 / 2 < r then f + 1 else if f % 2 = 0 then f else f + 1

/-! ## The type `double` -/

/-- An IEEE 754 binary64 value: sign bit, 11-bit exponent field, 52-bit fraction field. -/
structure double where
  sign : Bool
  expo : Fin 2048
  frac : Fin 4503599627370496
  deriving DecidableEq

namespace double

/-- The value with the given fields, each reduced to the width of its field. -/
def pack (sign : Bool) (expo frac : ℕ) : double :=
  ⟨sign, ⟨expo % 2048, Nat.mod_lt _ (by decide)⟩,
    ⟨frac % 4503599627370496, Nat.mod_lt _ (by decide)⟩⟩

/-- Not a number: exponent field all ones, fraction not zero. -/
def isNaN (d : double) : Bool :=
  d.expo.val == 2047 && d.frac.val != 0

/-- An infinity: exponent field all ones, fraction zero. -/
def isInf (d : double) : Bool :=
  d.expo.val == 2047 && d.frac.val == 0

/-- A finite number (zero, subnormal or normal): exponent field not all ones. -/
def isFinite (d : double) : Bool :=
  d.expo.val != 2047

/-- Plus or minus infinity. -/
def inf (sign : Bool) : double :=
  pack sign 2047 0

/-- Plus or minus zero. -/
def zero (sign : Bool) : double :=
  pack sign 0 0

/-- The quiet NaN with an empty payload and the given sign bit. -/
def nan (sign : Bool) : double :=
  pack sign 2047 2251799813685248

/-- The NaN an invalid operation produces on x86-64: sign bit set, quiet, empty payload. -/
def defaultNaN : double :=
  nan true

/-- A NaN operand as an operation returns it: the quiet bit set, the rest unchanged. -/
def quiet (d : double) : double :=
  if d.frac.val < 2251799813685248 then pack d.sign 2047 (d.frac.val + 2251799813685248) else d

/-- The magnitude of a finite value: `frac * 2 ^ -1074` for a zero or subnormal,
`(2 ^ 52 + frac) * 2 ^ (expo - 1075)` for a normal number. -/
def mag (d : double) : ℚ :=
  if d.expo.val = 0 then (d.frac.val : ℚ) * pow2 (-1074)
  else ((4503599627370496 + d.frac.val : ℕ) : ℚ) * pow2 ((d.expo.val : ℤ) - 1075)

/-- The number a finite value stands for. -/
def toRat (d : double) : ℚ :=
  if d.sign then -d.mag else d.mag

/-- The value `n * 2 ^ k` as a binary64, for a significand `n ≤ 2 ^ 53`: a subnormal (or
zero) when `n < 2 ^ 52`, a normal number otherwise, an infinity when the exponent is out
of range. -/
def encode (sign : Bool) (n : ℕ) (k : ℤ) : double :=
  if n < 4503599627370496 then pack sign 0 n
  else if n < 9007199254740992 then
    (if k + 1075 < 2047 then pack sign (k + 1075).toNat (n - 4503599627370496) else inf sign)
  else
    (if k + 1076 < 2047 then pack sign (k + 1076).toNat 0 else inf sign)

/-- Round the magnitude `q ≥ 0` to the nearest binary64, a tie going to the even
significand: the quantum is `2 ^ k` with 53 significant bits kept in the normal range and
`k = -1074` below it. -/
def round (sign : Bool) (q : ℚ) : double :=
  let k : ℤ := max (ilog2 q) (-1022) - 52
  encode sign (roundEven (q / pow2 k)) k

/-- The binary64 nearest to the number `q`: the value of a decimal constant. -/
def ofRat (q : ℚ) : double :=
  round (decide (q < 0)) |q|

/-- The operator `+`. An exact sum of zero is `-0` only when both operands are `-0`. -/
def add (a b : double) : double :=
  if a.isNaN then a.quiet
  else if b.isNaN then b.quiet
  else if a.isInf then (if b.isInf && (a.sign != b.sign) then defaultNaN else a)
  else if b.isInf then b
  else
    let s := a.toRat + b.toRat
    if s = 0 then zero (a.sign && b.sign) else ofRat s

/-- The unary operator `-`: the sign bit flipped. -/
def neg (a : double) : double :=
  ⟨!a.sign, a.expo, a.frac⟩

/-- The operator `-`. -/
def sub (a b : double) : double :=
  if a.isNaN then a.quiet
  else if b.isNaN then b.quiet
  else add a (neg b)

/-- The operator `*`. -/
def mul (a b : double) : double :=
  if a.isNaN then a.quiet
  else if b.isNaN then b.quiet
  else if a.isInf || b.isInf then
    (if (a.isFinite && a.mag == 0) || (b.isFinite && b.mag == 0) then defaultNaN
     else inf (a.sign != b.sign))
  else round (a.sign != b.sign) (a.mag * b.mag)

/-- The operator `/`. -/
def div (a b : double) : double :=
  if a.isNaN then a.quiet
  else if b.isNaN then b.quiet
  else if a.isInf then (if b.isInf then defaultNaN else inf (a.sign != b.sign))
  else if b.isInf then zero (a.sign != b.sign)
  else if b.mag = 0 then (if a.mag = 0 then defaultNaN else inf (a.sign != b.sign))
  else round (a.sign != b.sign) (a.mag / b.mag)

instance : Add double := ⟨add⟩

instance : Sub double := ⟨sub⟩

instance : Mul double := ⟨mul⟩

instance : Div double := ⟨div⟩

instance : Neg double := ⟨neg⟩

/-- A decimal constant such as `9.0` or `273.15` is the binary64 nearest to it. -/
instance : OfScientific double := ⟨fun m s e => ofRat (OfScientific.ofScientific m s e)⟩

end double

/-! ## temperature.h -/

/-- The header's `typedef double celsius_t;`. -/
abbrev celsius_t := double

/-- The header's `typedef double fahrenheit_t;`. -/
abbrev fahrenheit_t := double

/-- The header's `typedef double kelvin_t;`. -/
abbrev kelvin_t := double

/-! ## temperature.c: the four conversions -/

/-- Source: `return (celsius * 9.0 / 5.0) + 32.0;`. -/
def CelsiusToFahrenheit (celsius : double) : double :=
  (celsius * 9.0 / 5.0) + 32.0

/-- Source: `return (fahrenheit - 32.0) * 5.0 / 9.0;`. -/
def FahrenheitToCelsius (fahrenheit : double) : double :=
  (fahrenheit - 32.0) * 5.0 / 9.0

/-- Source: `return celsius + 273.15;`. -/
def CelsiusToKelvin (celsius : double) : double :=
  celsius + 273.15

/-- Source: `return kelvin - 273.15;`. -/
def KelvinToCelsius (kelvin : double) : double :=
  kelvin - 273.15

/-! ## The C library's formatted output -/

/-- The magnitude of a finite `x` in millionths, rounded to the nearest integer, a tie
going to the even neighbour. -/
def scaled (x : double) : ℕ :=
  roundEven (x.mag * 1000000)

/-- Six decimal digits of `m`, most significant first, zero padded. -/
def fraction (m : ℕ) : List Char :=
  [5, 4, 3, 2, 1, 0].map fun i => Nat.digitChar (m / 10 ^ i % 10)

/-- The directive `%lf` (the same as `%f`, precision 6): a minus sign when the sign bit
is set, then `nan`, `inf`, or the decimal digits of the integer part (at least one), a
point, and six digits of the fractional part. -/
def fmt_lf (x : double) : List Char :=
  (if x.sign then ['-'] else []) ++
    if x.isNaN then "nan".toList
    else if x.isInf then "inf".toList
    else Nat.toDigits 10 (scaled x / 1000000) ++ '.' :: fraction (scaled x % 1000000)

/-- An argument of a formatted-output call. -/
inductive Arg
  | dbl (x : double)
  | str (s : List Char)

/-- The text a format string produces from its arguments: `%lf` consumes a `double`,
`%s` consumes a string, every other character is copied. -/
def formatted : List Char → List Arg → List Char
  | '%' :: 'l' :: 'f' :: rest, Arg.dbl x :: args => fmt_lf x ++ formatted rest args
  | '%' :: 's' :: rest, Arg.str s :: args => s ++ formatted rest args
  | ch :: rest, args => ch :: formatted rest args
  | [], _ => []

/-- The characters `sprintf(buf, fmt, ...)` stores through `buf` before the NUL. -/
def sprintf (fmt : String) (args : List Arg) : List Char :=
  formatted fmt.toList args

/-- The characters `printf(fmt, ...)` appends to standard output. -/
def printf (fmt : String) (args : List Arg) : List Char :=
  formatted fmt.toList args

/-! ## temperature.c: `conversion` -/

/-- Source: `sprintf(buf, "%lf celsius is %lf kelvin", c, k);`. The result is the text
stored through `buf`; `conversion` receives a bare pointer and checks no bound. -/
def conversion (c : celsius_t) (k : kelvin_t) : List Char :=
  sprintf "%lf celsius is %lf kelvin" [Arg.dbl c, Arg.dbl k]

/-! ## Runs of the callers -/

/-- How a run ends: by returning from `main` with an exit code and the text printed, or
without defined behaviour after an out-of-bounds store. -/
inductive Ending
  | returned (code : ℤ) (stdout : List Char)
  | undefined
  deriving DecidableEq

/-- What a run of a caller did: the text `conversion` stored through `buf` (`none` when
`conversion` was not reached) and how the run ended. -/
structure Run where
  buf : Option (List Char)
  ending : Ending
  deriving DecidableEq

/-- The call `conversion(c, k, buf)` on an array `char buf[size]`, followed by `rest`:
the text and its NUL are stored whatever `size` is, and the run goes on to `rest` only
when they fit the array. -/
def withBuffer (size : ℕ) (text : List Char) (rest : List Char → Ending) : Run :=
  { buf := some text
    ending := if text.length + 1 ≤ size then rest text else Ending.undefined }

namespace myapp

/-- Source (`main.c`):
```
char buf[256];
double c = atof(argv[1]);
double k = CelsiusToFahrenheit(c);
conversion(c, k, buf);
printf("Running baselib code CelsiusToFahrenheit(%lf): %lf\n", c, k);
printf("kelvinToString: %s\n", buf);
return 1;
```
`atof` is the C library's; `argv1` is the first command-line argument. -/
def main (atof : List Char → double) (argv1 : List Char) : Run :=
  let c := atof argv1
  let k := CelsiusToFahrenheit c
  withBuffer 256 (conversion c k) fun buf =>
    Ending.returned 1
      (printf "Running baselib code CelsiusToFahrenheit(%lf): %lf\n" [Arg.dbl c, Arg.dbl k]
        ++ printf "kelvinToString: %s\n" [Arg.str buf])

end myapp

namespace harness1

/-- Source (`harness1.c`):
```
char buf[16];
double c = 0.0;
if ((fd = open(argv[1], O_RDONLY)) < 0) { return -1; }
read(fd, &c, sizeof(c));
double k = CelsiusToFahrenheit(c);
conversion(c, k, buf);
printf("%s\n", buf);
return 0;
```
`fd` is what `open` returned. `rd` is what `read` did to the object `c`: `none` when it
stored nothing (an error, or end of file before the first byte), `some v` when `c` holds
`v` afterwards, any bit pattern. The result of `read` is not inspected by the source. -/
def main (fd : ℤ) (rd : Option double) : Run :=
  if fd < 0 then
    { buf := none, ending := Ending.returned (-1) [] }
  else
    let c : double := match rd with
      | none => 0.0
      | some v => v
    let k := CelsiusToFahrenheit c
    withBuffer 16 (conversion c k) fun buf =>
      Ending.returned 0 (printf "%s\n" [Arg.str buf])

end harness1

/-! ## Reading a rendering back -/

/-- The number a sequence of decimal digits denotes, most significant digit first. It is
not part of the program: it states which number a rendering stands for. -/
def digitsValue (s : List Char) : ℕ :=
  s.foldl (fun a d => 10 * a + (d.toNat - '0'.toNat)) 0

/-! ## Facts about the rounding primitives -/

theorem pow2_eq (e : ℤ) : pow2 e = (2 : ℚ) ^ e := by
  unfold pow2
  split
  · rename_i h
    lift e to ℕ using h
    simp
  · rename_i h
    have h' : 0 ≤ -e := by omega
    obtain ⟨n, hn⟩ := Int.eq_ofNat_of_zero_le h'
    have he : e = -(n : ℤ) := by omega
    rw [hn, he]
    simp

theorem pow2_pos (e : ℤ) : 0 < pow2 e := by
  rw [pow2_eq]
  exact zpow_pos (by norm_num) e

theorem pow2_add (a b : ℤ) : pow2 (a + b) = pow2 a * pow2 b := by
  simp only [pow2_eq]
  exact zpow_add₀ (by norm_num) a b

theorem pow2_mono {a b : ℤ} (h : a ≤ b) : pow2 a ≤ pow2 b := by
  simp only [pow2_eq]
  exact zpow_le_zpow_right₀ (by norm_num) h

theorem pow2_natCast (n : ℕ) : pow2 (n : ℤ) = (2 : ℚ) ^ n := by
  rw [pow2_eq, zpow_natCast]

theorem log2Aux_spec (fuel : ℕ) : ∀ n : ℕ, n ≠ 0 → n ≤ fuel →
    2 ^ log2Aux fuel n ≤ n ∧ n < 2 ^ (log2Aux fuel n + 1) := by
  induction fuel with
  | zero => intro n h0 h; omega
  | succ fuel ih =>
    intro n h0 h
    simp only [log2Aux]
    split
    · rename_i h2
      have : n = 1 := by omega
      subst this
      norm_num
    · rename_i h2
      obtain ⟨l, u⟩ := ih (n / 2) (by omega) (by omega)
      rw [pow_succ, pow_succ]
      constructor <;> omega

theorem natLog2_self_le {n : ℕ} (h : n ≠ 0) : 2 ^ natLog2 n ≤ n :=
  (log2Aux_spec n n h le_rfl).1

theorem lt_natLog2_self {n : ℕ} (h : n ≠ 0) : n < 2 ^ (natLog2 n + 1) :=
  (log2Aux_spec n n h le_rfl).2

theorem ilog2_spec (q : ℚ) (hq : 0 < q) : pow2 (ilog2 q) ≤ q ∧ q < pow2 (ilog2 q + 1) := by
  have hnum : 0 < q.num := Rat.num_pos.mpr hq
  have hN : q.num.natAbs ≠ 0 := by omega
  have hD : q.den ≠ 0 := q.den_nz
  have hqe : q = (q.num.natAbs : ℚ) / (q.den : ℚ) := by
    have h1 : ((q.num.natAbs : ℤ) : ℚ) = (q.num : ℚ) := by
      rw [Int.natAbs_of_nonneg hnum.le]
    rw [← Int.cast_natCast, h1]
    exact (Rat.num_div_den q).symm
  have hDpos : (0 : ℚ) < (q.den : ℚ) := by exact_mod_cast Nat.pos_of_ne_zero hD
  have a1 : ((2 : ℚ) ^ natLog2 q.num.natAbs) ≤ (q.num.natAbs : ℚ) := by
    exact_mod_cast natLog2_self_le hN
  have a2 : (q.num.natAbs : ℚ) < (2 : ℚ) ^ (natLog2 q.num.natAbs + 1) := by
    exact_mod_cast lt_natLog2_self hN
  have b1 : ((2 : ℚ) ^ natLog2 q.den) ≤ (q.den : ℚ) := by
    exact_mod_cast natLog2_self_le hD
  have b2 : (q.den : ℚ) < (2 : ℚ) ^ (natLog2 q.den + 1) := by
    exact_mod_cast lt_natLog2_self hD
  have hpa : (0 : ℚ) < 2 ^ natLog2 q.num.natAbs := by positivity
  have hpb : (0 : ℚ) < 2 ^ natLog2 q.den := by positivity
  have he : ∀ d : ℤ, pow2 ((natLog2 q.num.natAbs : ℤ) - (natLog2 q.den : ℤ) + d)
      = (2 : ℚ) ^ natLog2 q.num.natAbs / (2 : ℚ) ^ natLog2 q.den * pow2 d := by
    intro d
    rw [pow2_add, pow2_eq, zpow_sub₀ (by norm_num), zpow_natCast, zpow_natCast]
  have he0 := he 0
  have he1 := he 1
  have hem := he (-1)
  have p0 : pow2 0 = 1 := by norm_num [pow2]
  have p1 : pow2 1 = 2 := by norm_num [pow2]
  have pm : pow2 (-1) = 1 / 2 := by norm_num [pow2]
  rw [p0, add_zero, mul_one] at he0
  rw [p1] at he1
  rw [pm] at hem
  have hNpos : (0 : ℚ) < (q.num.natAbs : ℚ) := lt_of_lt_of_le hpa a1
  have upper : q < (2 : ℚ) ^ natLog2 q.num.natAbs / (2 : ℚ) ^ natLog2 q.den * 2 := by
    have h2 : (2 : ℚ) ^ (natLog2 q.num.natAbs + 1) = 2 ^ natLog2 q.num.natAbs * 2 := pow_succ _ _
    have : (q.num.natAbs : ℚ) / (q.den : ℚ)
        < (2 : ℚ) ^ natLog2 q.num.natAbs / (2 : ℚ) ^ natLog2 q.den * 2 := by
      rw [div_mul_eq_mul_div, div_lt_div_iff₀ hDpos hpb]
      nlinarith
    exact lt_of_eq_of_lt hqe this
  have lower : (2 : ℚ) ^ natLog2 q.num.natAbs / (2 : ℚ) ^ natLog2 q.den * (1 / 2) ≤ q := by
    have h2 : (2 : ℚ) ^ (natLog2 q.den + 1) = 2 ^ natLog2 q.den * 2 := pow_succ _ _
    have : (2 : ℚ) ^ natLog2 q.num.natAbs / (2 : ℚ) ^ natLog2 q.den * (1 / 2)
        ≤ (q.num.natAbs : ℚ) / (q.den : ℚ) := by
      rw [div_mul_eq_mul_div, div_le_div_iff₀ hpb hDpos]
      nlinarith
    exact le_of_le_of_eq this hqe.symm
  simp only [ilog2]
  split
  · rename_i h
    exact ⟨h, by rw [he1]; exact upper⟩
  · rename_i h
    rw [not_le] at h
    refine ⟨?_, ?_⟩
    · rw [sub_eq_add_neg, hem]; exact lower
    · rw [sub_add_cancel]; exact h

theorem roundEven_near (y : ℚ) (hy : 0 ≤ y) : |(roundEven y : ℚ) - y| ≤ 1 / 2 := by
  have h1 := Nat.floor_le hy
  have h2 := Nat.lt_floor_add_one y
  simp only [roundEven]
  split_ifs with ha hb hc
  · rw [abs_le]; constructor <;> linarith
  · rw [abs_le]; push_cast; constructor <;> linarith
  · rw [abs_le]; constructor <;> linarith
  · rw [abs_le]; push_cast; constructor <;> linarith

theorem roundEven_le (y : ℚ) (hy : 0 ≤ y) (m : ℕ) (h : y ≤ m) : roundEven y ≤ m := by
  have hn := abs_le.mp (roundEven_near y hy)
  have : (roundEven y : ℚ) < (m : ℚ) + 1 := by linarith [hn.2]
  have : roundEven y < m + 1 := by exact_mod_cast this
  omega

theorem roundEven_ge (y : ℚ) (hy : 0 ≤ y) (m : ℕ) (h : (m : ℚ) ≤ y) : m ≤ roundEven y := by
  have hn := abs_le.mp (roundEven_near y hy)
  have : (m : ℚ) < (roundEven y : ℚ) + 1 := by linarith [hn.1]
  have : m < roundEven y + 1 := by exact_mod_cast this
  omega

theorem roundEven_lt (y : ℚ) (hy : 0 ≤ y) (m : ℕ) (h : y < (m : ℚ) - 1 / 2) :
    roundEven y < m := by
  have hn := abs_le.mp (roundEven_near y hy)
  have : (roundEven y : ℚ) < (m : ℚ) := by linarith [hn.2]
  exact_mod_cast this

namespace double

theorem pack_sign (s : Bool) (e f : ℕ) : (pack s e f).sign = s := rfl

theorem pack_expo (s : Bool) (e f : ℕ) (he : e < 2048) : (pack s e f).expo.val = e := by
  simp [pack, Nat.mod_eq_of_lt he]

theorem pack_frac (s : Bool) (e f : ℕ) (hf : f < 4503599627370496) :
    (pack s e f).frac.val = f := by
  simp [pack, Nat.mod_eq_of_lt hf]

theorem pack_isFinite (s : Bool) (e f : ℕ) (he : e < 2047) : (pack s e f).isFinite = true := by
  have := pack_expo s e f (by omega)
  simp only [isFinite, this]
  simp
  omega

theorem encode_spec (s : Bool) (n : ℕ) (k : ℤ) (hk : -1074 ≤ k)
    (hsub : n < 4503599627370496 → k = -1074) (hn : n ≤ 9007199254740992)
    (hov : k ≤ 970 ∨ (k = 971 ∧ n < 9007199254740992)) :
    (encode s n k).isFinite = true ∧ (encode s n k).sign = s
      ∧ (encode s n k).mag = (n : ℚ) * pow2 k := by
  unfold encode
  split
  · rename_i h
    refine ⟨pack_isFinite _ _ _ (by norm_num), rfl, ?_⟩
    rw [hsub h]
    simp only [mag, pack_expo s 0 n (by norm_num), pack_frac s 0 n h, if_true]
  · rename_i h
    rw [not_lt] at h
    split
    · rename_i h2
      have hk2 : k + 1075 < 2047 := by omega
      rw [if_pos hk2]
      have hE : ((k + 1075).toNat : ℤ) = k + 1075 := Int.toNat_of_nonneg (by omega)
      have hE1 : (k + 1075).toNat < 2047 := by omega
      have hE0 : (k + 1075).toNat ≠ 0 := by omega
      refine ⟨pack_isFinite _ _ _ hE1, rfl, ?_⟩
      simp only [mag, pack_expo s _ _ (show (k + 1075).toNat < 2048 by omega),
        pack_frac s _ _ (show n - 4503599627370496 < 4503599627370496 by omega), hE0, if_false,
        hE]
      have : 4503599627370496 + (n - 4503599627370496) = n := by omega
      rw [this, add_sub_cancel_right]
    · rename_i h2
      have hn2 : n = 9007199254740992 := by omega
      have hk2 : k + 1076 < 2047 := by omega
      rw [if_pos hk2]
      have hE : ((k + 1076).toNat : ℤ) = k + 1076 := Int.toNat_of_nonneg (by omega)
      have hE1 : (k + 1076).toNat < 2047 := by omega
      have hE0 : (k + 1076).toNat ≠ 0 := by omega
      refine ⟨pack_isFinite _ _ _ hE1, rfl, ?_⟩
      simp only [mag, pack_expo s _ _ (show (k + 1076).toNat < 2048 by omega),
        pack_frac s _ 0 (by norm_num), hE0, if_false, hE]
      have hk1 : k + 1076 - 1075 = k + 1 := by ring
      have p1 : pow2 1 = 2 := by rw [pow2_eq]; norm_num
      rw [hk1, pow2_add, p1, hn2]
      push_cast
      ring

theorem round_spec (s : Bool) (q : ℚ) (h0 : 0 ≤ q)
    (hlt : q < 2 ^ 1024 - 2 ^ 970) :
    (round s q).isFinite = true ∧ (round s q).sign = s
      ∧ |(round s q).mag - q| ≤ q / 2 ^ 53 + 1 / 2 ^ 1075 := by
  rcases eq_or_lt_of_le h0 with hq0 | hq
  · subst hq0
    have hz : roundEven (0 / pow2 (max (ilog2 0) (-1022) - 52)) = 0 := by
      simp [roundEven]
    simp only [round, hz]
    refine ⟨?_, ?_, ?_⟩
    · simp [encode, pack_isFinite]
    · simp [encode, pack_sign]
    · simp [encode, mag, pack_expo, pack_frac]
  · obtain ⟨hlo, hhi⟩ := ilog2_spec q hq
    have hkpos := pow2_pos (max (ilog2 q) (-1022) - 52)
    have hy0 : 0 ≤ q / pow2 (max (ilog2 q) (-1022) - 52) := div_nonneg h0 hkpos.le
    have hnear := abs_le.mp (roundEven_near _ hy0)
    have hqy : q = q / pow2 (max (ilog2 q) (-1022) - 52) * pow2 (max (ilog2 q) (-1022) - 52) := by
      field_simp
    have p1024 : pow2 1024 = 2 ^ 1024 := by rw [pow2_eq]; norm_num
    have p53 : pow2 53 = 9007199254740992 := by rw [pow2_eq]; norm_num
    have p52 : pow2 52 = 4503599627370496 := by rw [pow2_eq]; norm_num
    have pm52 : pow2 (-52) = 1 / 4503599627370496 := by rw [pow2_eq]; norm_num
    have p971 : pow2 971 = 2 ^ 971 := by rw [pow2_eq]; norm_num
    have pm1074 : pow2 (-1074) = 1 / 2 ^ 1074 := by rw [pow2_eq]; norm_num
    -- the exponent is at most 1023
    have he : ilog2 q ≤ 1023 := by
      by_contra hcon
      have : pow2 1024 ≤ pow2 (ilog2 q) := pow2_mono (by omega)
      have hbig : (2 : ℚ) ^ 1024 ≤ q := by rw [← p1024]; exact le_trans this hlo
      have : (0 : ℚ) < 2 ^ 970 := by positivity
      linarith
    -- the scaled magnitude is below 2 ^ 53
    have hylt : q / pow2 (max (ilog2 q) (-1022) - 52) < 9007199254740992 := by
      rw [div_lt_iff₀ hkpos, ← p53, ← pow2_add]
      exact lt_of_lt_of_le hhi (pow2_mono (by omega))
    have hn53 := roundEven_le _ hy0 9007199254740992 (by exact_mod_cast hylt.le)
    -- in the normal range it is at least 2 ^ 52
    have hsub : roundEven (q / pow2 (max (ilog2 q) (-1022) - 52)) < 4503599627370496 →
        max (ilog2 q) (-1022) - 52 = -1074 := by
      intro hsmall
      by_contra hcon
      have hk : max (ilog2 q) (-1022) - 52 = ilog2 q - 52 := by omega
      have : (4503599627370496 : ℚ) ≤ q / pow2 (max (ilog2 q) (-1022) - 52) := by
        rw [le_div_iff₀ hkpos, ← p52, ← pow2_add, hk]
        have : (52 : ℤ) + (ilog2 q - 52) = ilog2 q := by ring
        rw [this]
        exact hlo
      have := roundEven_ge _ hy0 4503599627370496 (by exact_mod_cast this)
      omega
    have hov : max (ilog2 q) (-1022) - 52 ≤ 970 ∨ (max (ilog2 q) (-1022) - 52 = 971
        ∧ roundEven (q / pow2 (max (ilog2 q) (-1022) - 52)) < 9007199254740992) := by
      by_cases h23 : ilog2 q = 1023
      · right
        have hk : max (ilog2 q) (-1022) - 52 = 971 := by omega
        refine ⟨hk, ?_⟩
        apply roundEven_lt _ hy0
        rw [hk, p971, div_lt_iff₀ (by positivity)]
        have e1 : (2 : ℚ) ^ 1024 = 9007199254740992 * 2 ^ 971 := by norm_num
        have e2 : (2 : ℚ) ^ 971 = 2 * 2 ^ 970 := by norm_num
        push_cast
        linarith
      · left
        omega
    obtain ⟨hfin, hsign, hmag⟩ := encode_spec s _ _ (by omega) hsub hn53 hov
    refine ⟨hfin, hsign, ?_⟩
    simp only [round] at hfin hsign hmag ⊢
    rw [hmag]
    have herr : |(roundEven (q / pow2 (max (ilog2 q) (-1022) - 52)) : ℚ)
          * pow2 (max (ilog2 q) (-1022) - 52) - q|
        ≤ pow2 (max (ilog2 q) (-1022) - 52) / 2 := by
      rw [abs_le]
      constructor
      · nlinarith [hnear.1, hnear.2]
      · nlinarith [hnear.1, hnear.2]
    refine le_trans herr ?_
    by_cases hnorm : -1022 ≤ ilog2 q
    · have hk : max (ilog2 q) (-1022) - 52 = ilog2 q + -52 := by omega
      rw [hk, pow2_add, pm52]
      have : (0 : ℚ) < 1 / 2 ^ 1075 := by positivity
      have e53 : (2 : ℚ) ^ 53 = 9007199254740992 := by norm_num
      rw [e53]
      linarith
    · have hk : max (ilog2 q) (-1022) - 52 = -1074 := by omega
      rw [hk, pm1074]
      have e1 : (1 : ℚ) / 2 ^ 1074 / 2 = 1 / 2 ^ 1075 := by norm_num
      have : 0 ≤ q / 2 ^ 53 := by positivity
      linarith

end double

namespace double

theorem mag_nonneg (d : double) : 0 ≤ d.mag := by
  unfold mag
  split
  · exact mul_nonneg (by positivity) (pow2_pos _).le
  · exact mul_nonneg (by positivity) (pow2_pos _).le

theorem abs_toRat (d : double) : |d.toRat| = d.mag := by
  unfold toRat
  split
  · rw [abs_neg, abs_of_nonneg (mag_nonneg d)]
  · exact abs_of_nonneg (mag_nonneg d)

theorem expo_of_isFinite (d : double) (h : d.isFinite = true) : d.expo.val ≤ 2046 := by
  have h1 := d.expo.isLt
  simp only [isFinite, bne_iff_ne, ne_eq] at h
  omega

theorem isNaN_of_isFinite (d : double) (h : d.isFinite = true) : d.isNaN = false := by
  have := expo_of_isFinite d h
  simp [isNaN]
  omega

theorem isInf_of_isFinite (d : double) (h : d.isFinite = true) : d.isInf = false := by
  have := expo_of_isFinite d h
  simp [isInf]
  omega

/-- A finite binary64 is at most `DBL_MAX = 2 ^ 1024 - 2 ^ 971` in magnitude. -/
theorem mag_le_max (d : double) (h : d.isFinite = true) : d.mag ≤ 2 ^ 1024 - 2 ^ 971 := by
  have he := expo_of_isFinite d h
  have hf := d.frac.isLt
  have hfq : (d.frac.val : ℚ) ≤ 4503599627370495 := by
    have : d.frac.val ≤ 4503599627370495 := by omega
    exact_mod_cast this
  have p971 : pow2 971 = 2 ^ 971 := by rw [pow2_eq]; norm_num
  have e1 : (2 : ℚ) ^ 1024 = 9007199254740992 * 2 ^ 971 := by norm_num
  have hp971 : (0 : ℚ) < 2 ^ 971 := by positivity
  unfold mag
  split
  · have hm : pow2 (-1074) ≤ pow2 971 := pow2_mono (by norm_num)
    have hpos := pow2_pos (-1074)
    rw [p971] at hm
    have h1 : (d.frac.val : ℚ) * pow2 (-1074) ≤ 4503599627370495 * 2 ^ 971 :=
      mul_le_mul hfq hm hpos.le (by norm_num)
    linarith
  · have hm : pow2 ((d.expo.val : ℤ) - 1075) ≤ pow2 971 := pow2_mono (by omega)
    have hpos := pow2_pos ((d.expo.val : ℤ) - 1075)
    rw [p971] at hm
    have h1 : ((4503599627370496 + d.frac.val : ℕ) : ℚ) * pow2 ((d.expo.val : ℤ) - 1075)
        ≤ 9007199254740991 * 2 ^ 971 := by
      apply mul_le_mul _ hm hpos.le (by norm_num)
      push_cast
      linarith
    linarith

theorem toRat_round (s : Bool) (m x : ℚ) (h0 : 0 ≤ m) (hlt : m < 2 ^ 1024 - 2 ^ 970)
    (hx : x = if s then -m else m) :
    (round s m).isFinite = true
      ∧ |(round s m).toRat - x| ≤ |x| / 2 ^ 53 + 1 / 2 ^ 1075 := by
  obtain ⟨hfin, hsign, herr⟩ := round_spec s m h0 hlt
  refine ⟨hfin, ?_⟩
  have hax : |x| = m := by
    rw [hx]
    split
    · rw [abs_neg, abs_of_nonneg h0]
    · exact abs_of_nonneg h0
  rw [hax]
  unfold toRat
  rw [hsign, hx]
  cases s
  · simpa using herr
  · simp only [if_true]
    have : -(round true m).mag - -m = -((round true m).mag - m) := by ring
    rw [this, abs_neg]
    exact herr

theorem toRat_ofRat (q : ℚ) (hlt : |q| < 2 ^ 1024 - 2 ^ 970) :
    (ofRat q).isFinite = true ∧ |(ofRat q).toRat - q| ≤ |q| / 2 ^ 53 + 1 / 2 ^ 1075 := by
  apply toRat_round _ _ _ (abs_nonneg q) hlt
  by_cases h : q < 0
  · simp [h, abs_of_neg h]
  · simp [h, abs_of_nonneg (not_lt.mp h)]

theorem add_spec (a b : double) (ha : a.isFinite = true) (hb : b.isFinite = true)
    (hlt : |a.toRat + b.toRat| < 2 ^ 1024 - 2 ^ 970) :
    (a + b).isFinite = true
      ∧ |(a + b).toRat - (a.toRat + b.toRat)| ≤ |a.toRat + b.toRat| / 2 ^ 53 + 1 / 2 ^ 1075 := by
  show (add a b).isFinite = true ∧ |(add a b).toRat - _| ≤ _
  simp only [add, isNaN_of_isFinite a ha, isNaN_of_isFinite b hb, isInf_of_isFinite a ha,
    isInf_of_isFinite b hb, Bool.false_eq_true, if_false]
  split
  · rename_i h0
    rw [h0]
    refine ⟨by simp [zero, pack_isFinite], ?_⟩
    have : (zero (a.sign && b.sign)).toRat = 0 := by
      simp [toRat, mag, zero, pack_expo, pack_frac]
    rw [this]
    norm_num
  · exact toRat_ofRat _ hlt

theorem neg_isFinite (b : double) : (neg b).isFinite = b.isFinite := rfl

theorem neg_toRat (b : double) : (neg b).toRat = -b.toRat := by
  cases hb : b.sign <;> simp [toRat, neg, mag, hb]

theorem sub_spec (a b : double) (ha : a.isFinite = true) (hb : b.isFinite = true)
    (hlt : |a.toRat - b.toRat| < 2 ^ 1024 - 2 ^ 970) :
    (a - b).isFinite = true
      ∧ |(a - b).toRat - (a.toRat - b.toRat)| ≤ |a.toRat - b.toRat| / 2 ^ 53 + 1 / 2 ^ 1075 := by
  show (sub a b).isFinite = true ∧ |(sub a b).toRat - _| ≤ _
  simp only [sub, isNaN_of_isFinite a ha, isNaN_of_isFinite b hb, Bool.false_eq_true, if_false]
  have := add_spec a (neg b) ha (by rw [neg_isFinite]; exact hb)
    (by rw [neg_toRat, ← sub_eq_add_neg]; exact hlt)
  rw [neg_toRat, ← sub_eq_add_neg] at this
  exact this

theorem toRat_mul_sign (a b : double) :
    a.toRat * b.toRat = if (a.sign != b.sign) then -(a.mag * b.mag) else a.mag * b.mag := by
  cases ha : a.sign <;> cases hb : b.sign <;> simp [toRat, ha, hb]

theorem toRat_div_sign (a b : double) :
    a.toRat / b.toRat = if (a.sign != b.sign) then -(a.mag / b.mag) else a.mag / b.mag := by
  cases ha : a.sign <;> cases hb : b.sign <;> simp [toRat, ha, hb, neg_div, div_neg]

theorem mul_spec (a b : double) (ha : a.isFinite = true) (hb : b.isFinite = true)
    (hlt : |a.toRat * b.toRat| < 2 ^ 1024 - 2 ^ 970) :
    (a * b).isFinite = true
      ∧ |(a * b).toRat - a.toRat * b.toRat| ≤ |a.toRat * b.toRat| / 2 ^ 53 + 1 / 2 ^ 1075 := by
  show (mul a b).isFinite = true ∧ |(mul a b).toRat - _| ≤ _
  simp only [mul, isNaN_of_isFinite a ha, isNaN_of_isFinite b hb, isInf_of_isFinite a ha,
    isInf_of_isFinite b hb, Bool.false_eq_true, if_false, Bool.or_self]
  apply toRat_round _ _ _ (mul_nonneg (mag_nonneg a) (mag_nonneg b))
  · rw [abs_mul, abs_toRat, abs_toRat] at hlt
    exact hlt
  · exact toRat_mul_sign a b

theorem div_spec (a b : double) (ha : a.isFinite = true) (hb : b.isFinite = true)
    (hb0 : b.toRat ≠ 0) (hlt : |a.toRat / b.toRat| < 2 ^ 1024 - 2 ^ 970) :
    (a / b).isFinite = true
      ∧ |(a / b).toRat - a.toRat / b.toRat| ≤ |a.toRat / b.toRat| / 2 ^ 53 + 1 / 2 ^ 1075 := by
  show (div a b).isFinite = true ∧ |(div a b).toRat - _| ≤ _
  have hm : b.mag ≠ 0 := by
    rw [← abs_toRat]
    exact abs_ne_zero.mpr hb0
  simp only [div, isNaN_of_isFinite a ha, isNaN_of_isFinite b hb, isInf_of_isFinite a ha,
    isInf_of_isFinite b hb, Bool.false_eq_true, if_false, hm]
  apply toRat_round _ _ _ (div_nonneg (mag_nonneg a) (mag_nonneg b))
  · rw [abs_div, abs_toRat, abs_toRat] at hlt
    exact hlt
  · exact toRat_div_sign a b

end double

theorem digitChar_value (n : ℕ) (h : n < 10) :
    (Nat.digitChar n).toNat - '0'.toNat = n := by
  interval_cases n <;> rfl

theorem digitChar_isDigit (n : ℕ) (h : n < 10) : (Nat.digitChar n).isDigit = true := by
  interval_cases n <;> rfl

theorem foldl_digits (s : List Char) (a : ℕ) :
    s.foldl (fun a d => 10 * a + (d.toNat - '0'.toNat)) a
      = a * 10 ^ s.length + digitsValue s := by
  induction s generalizing a with
  | nil => simp [digitsValue]
  | cons d s ih =>
    simp only [List.foldl_cons, digitsValue, List.length_cons]
    rw [ih, ih (10 * 0 + _)]
    ring

theorem digitsValue_cons (d : Char) (s : List Char) :
    digitsValue (d :: s) = (d.toNat - '0'.toNat) * 10 ^ s.length + digitsValue s := by
  rw [digitsValue, List.foldl_cons, foldl_digits]
  simp

theorem digitsValue_append (s t : List Char) :
    digitsValue (s ++ t) = digitsValue s * 10 ^ t.length + digitsValue t := by
  rw [digitsValue, List.foldl_append, foldl_digits]
  rfl

theorem toDigitsCore_value (fuel : ℕ) : ∀ (n : ℕ) (acc : List Char), n < fuel →
    digitsValue (Nat.toDigitsCore 10 fuel n acc) = n * 10 ^ acc.length + digitsValue acc := by
  induction fuel with
  | zero => intro n acc h; omega
  | succ fuel ih =>
    intro n acc h
    have hd : n % 10 < 10 := Nat.mod_lt _ (by norm_num)
    simp only [Nat.toDigitsCore]
    split
    · rename_i h0
      rw [digitsValue_cons, digitChar_value _ hd]
      have : n % 10 = n := by omega
      rw [this]
    · rename_i h0
      rw [ih (n / 10) _ (by omega), digitsValue_cons, digitChar_value _ hd, List.length_cons]
      have : n = 10 * (n / 10) + n % 10 := (Nat.div_add_mod n 10).symm
      conv_rhs => rw [this]
      ring

theorem toDigits_value (n : ℕ) : digitsValue (Nat.toDigits 10 n) = n := by
  rw [Nat.toDigits, toDigitsCore_value _ _ _ (Nat.lt_succ_self n)]
  simp [digitsValue]

theorem toDigitsCore_isDigit (fuel : ℕ) : ∀ (n : ℕ) (acc : List Char),
    (∀ d ∈ acc, d.isDigit = true) → ∀ d ∈ Nat.toDigitsCore 10 fuel n acc, d.isDigit = true := by
  induction fuel with
  | zero => intro n acc h; simpa [Nat.toDigitsCore] using h
  | succ fuel ih =>
    intro n acc h
    have hd : n % 10 < 10 := Nat.mod_lt _ (by norm_num)
    have hacc : ∀ d ∈ Nat.digitChar (n % 10) :: acc, d.isDigit = true := by
      intro d hmem
      rcases List.mem_cons.mp hmem with rfl | hmem
      · exact digitChar_isDigit _ hd
      · exact h d hmem
    simp only [Nat.toDigitsCore]
    split
    · exact hacc
    · exact ih _ _ hacc

theorem toDigitsCore_length_le (fuel : ℕ) : ∀ (n : ℕ) (acc : List Char),
    acc.length ≤ (Nat.toDigitsCore 10 fuel n acc).length := by
  induction fuel with
  | zero => intro n acc; simp [Nat.toDigitsCore]
  | succ fuel ih =>
    intro n acc
    simp only [Nat.toDigitsCore]
    split
    · simp
    · exact le_trans (by simp) (ih _ _)

theorem toDigitsCore_length (k : ℕ) : ∀ (fuel n : ℕ) (acc : List Char), k < fuel → 10 ^ k ≤ n →
    acc.length + k + 1 ≤ (Nat.toDigitsCore 10 fuel n acc).length := by
  induction k with
  | zero =>
    intro fuel n acc hf _
    obtain ⟨fuel, rfl⟩ : ∃ m, fuel = m + 1 := ⟨fuel - 1, by omega⟩
    simp only [Nat.toDigitsCore]
    split
    · simp
    · exact le_trans (by simp) (toDigitsCore_length_le _ _ _)
  | succ k ih =>
    intro fuel n acc hf hn
    obtain ⟨fuel, rfl⟩ : ∃ m, fuel = m + 1 := ⟨fuel - 1, by omega⟩
    have hk : 10 ^ k ≤ n / 10 := by
      rw [Nat.le_div_iff_mul_le (by norm_num)]
      simpa [pow_succ] using hn
    have hpos : 0 < 10 ^ k := by positivity
    simp only [Nat.toDigitsCore]
    split
    · omega
    · have := ih fuel (n / 10) (Nat.digitChar (n % 10) :: acc) (by omega) hk
      simp only [List.length_cons] at this
      omega

theorem toDigits_length_pos (n : ℕ) : 1 ≤ (Nat.toDigits 10 n).length := by
  cases n with
  | zero => decide
  | succ n =>
    have := toDigitsCore_length 0 (n + 1 + 1) (n + 1) [] (by omega) (by simp)
    simpa [Nat.toDigits] using this

theorem toDigits_length (k n : ℕ) (h : 10 ^ k ≤ n) : k + 1 ≤ (Nat.toDigits 10 n).length := by
  have hk : k < 10 ^ k := Nat.lt_pow_self (by norm_num) k
  have := toDigitsCore_length k (n + 1) n [] (by omega) h
  simpa [Nat.toDigits] using this

theorem fraction_length (m : ℕ) : (fraction m).length = 6 := by
  simp [fraction]

theorem fraction_isDigit (m : ℕ) : ∀ d ∈ fraction m, d.isDigit = true := by
  intro d hd
  simp only [fraction, List.map_cons, List.map_nil, List.mem_cons, List.mem_singleton,
    List.not_mem_nil, or_false] at hd
  rcases hd with rfl | rfl | rfl | rfl | rfl | rfl <;>
    exact digitChar_isDigit _ (Nat.mod_lt _ (by norm_num))

theorem fraction_value (m : ℕ) : digitsValue (fraction m) = m % 1000000 := by
  have h (i : ℕ) : (Nat.digitChar (m / 10 ^ i % 10)).toNat - '0'.toNat = m / 10 ^ i % 10 :=
    digitChar_value _ (Nat.mod_lt _ (by norm_num))
  simp only [fraction, List.map_cons, List.map_nil, digitsValue_cons, h]
  simp only [digitsValue, List.foldl_nil, List.length_cons, List.length_nil]
  norm_num
  omega

theorem scaled_near (x : double) : |(scaled x : ℚ) - x.mag * 1000000| ≤ 1 / 2 :=
  roundEven_near _ (mul_nonneg x.mag_nonneg (by norm_num))

theorem scaled_ge (x : double) (n : ℕ) (h : (n : ℚ) ≤ x.mag) : n * 1000000 ≤ scaled x := by
  apply roundEven_ge _ (mul_nonneg x.mag_nonneg (by norm_num))
  push_cast
  exact mul_le_mul_of_nonneg_right h (by norm_num)

theorem fmt_lf_finite (x : double) (h : x.isFinite = true) :
    fmt_lf x = (if x.sign then ['-'] else []) ++ Nat.toDigits 10 (scaled x / 1000000)
      ++ '.' :: fraction (scaled x % 1000000) := by
  simp [fmt_lf, double.isNaN_of_isFinite x h, double.isInf_of_isFinite x h]

theorem fmt_lf_length (x : double) : 3 ≤ (fmt_lf x).length := by
  have := toDigits_length_pos (scaled x / 1000000)
  simp only [fmt_lf, List.length_append]
  split_ifs <;> simp [fraction_length]
  omega

theorem fmt_lf_length_of_le (x : double) (hx : x.isFinite = true) (n : ℕ)
    (h : (10 : ℚ) ^ n ≤ x.mag) : n + 8 ≤ (fmt_lf x).length := by
  have hs := scaled_ge x (10 ^ n) (by exact_mod_cast h)
  have hd : 10 ^ n ≤ scaled x / 1000000 := by
    rw [Nat.le_div_iff_mul_le (by norm_num)]
    exact hs
  have := toDigits_length n _ hd
  rw [fmt_lf_finite x hx]
  simp only [List.length_append, List.length_cons, fraction_length]
  omega

theorem conversion_eq (c k : double) :
    conversion c k = fmt_lf c ++ " celsius is ".toList ++ fmt_lf k ++ " kelvin".toList := by
  simp [conversion, sprintf, formatted]

theorem conversion_length (c k : double) :
    (conversion c k).length = (fmt_lf c).length + (fmt_lf k).length + 19 := by
  simp [conversion_eq]
  omega

theorem conversion_length_ge (c k : double) : 25 ≤ (conversion c k).length := by
  have := fmt_lf_length c
  have := fmt_lf_length k
  rw [conversion_length]
  omega

/-- The shape and the value of what `%lf` prints for a finite value. -/
theorem fmt_lf_fixed_point (x : double) (hx : x.isFinite = true) :
    ∃ whole frac : List Char,
      fmt_lf x = (if x.sign then ['-'] else []) ++ whole ++ '.' :: frac
      ∧ whole ≠ [] ∧ frac.length = 6
      ∧ (∀ d ∈ whole ++ frac, d.isDigit = true)
      ∧ |(digitsValue (whole ++ frac) : ℚ) / 1000000 - x.mag| ≤ 1 / 2000000 := by
  refine ⟨Nat.toDigits 10 (scaled x / 1000000), fraction (scaled x % 1000000),
    fmt_lf_finite x hx, ?_, fraction_length _, ?_, ?_⟩
  · intro h
    have := toDigits_length_pos (scaled x / 1000000)
    simp [h] at this
  · intro d hd
    rcases List.mem_append.mp hd with hd | hd
    · exact toDigitsCore_isDigit _ _ _ (by simp) d hd
    · exact fraction_isDigit _ d hd
  · have hv : digitsValue (Nat.toDigits 10 (scaled x / 1000000) ++ fraction (scaled x % 1000000))
        = scaled x := by
      rw [digitsValue_append, toDigits_value, fraction_value, fraction_length]
      have := Nat.div_add_mod (scaled x) 1000000
      omega
    rw [hv]
    have := scaled_near x
    rw [abs_le] at this ⊢
    constructor <;> linarith

theorem withBuffer_buf (size : ℕ) (text : List Char) (rest : List Char → Ending) :
    (withBuffer size text rest).buf = some text := rfl

theorem withBuffer_undefined (size : ℕ) (text : List Char) (rest : List Char → Ending)
    (h : size < text.length + 1) : (withBuffer size text rest).ending = Ending.undefined := by
  simp [withBuffer, Nat.not_le.mpr h]

theorem withBuffer_fits (size : ℕ) (text : List Char) (rest : List Char → Ending)
    (h : text.length + 1 ≤ size) : (withBuffer size text rest).ending = rest text := by
  simp [withBuffer, h]

/-! ## Error analysis -/

theorem abs_le_add_of_near {x y r : ℚ} (h : |x - y| ≤ r) : |x| ≤ |y| + r := by
  have := abs_sub_abs_le_abs_sub x y
  linarith

theorem chain_forward (x a b d η : ℚ) (hη : η ≤ 1 / 2 ^ 60)
    (e1 : |a - x * 9| ≤ |x| * 9 / 2 ^ 53 + η)
    (e2 : |b - a / 5| ≤ |a| / 5 / 2 ^ 53 + η)
    (e3 : |d - (b + 32)| ≤ |b + 32| / 2 ^ 53 + η) :
    |d - (x * 9 / 5 + 32)| ≤ |x| / 2 ^ 50 + 1 / 2 ^ 47 := by
  have hx9 : |x * 9| = |x| * 9 := by rw [abs_mul]; norm_num
  have ha5 : |a / 5| = |a| / 5 := by rw [abs_div]; norm_num
  have a1 := abs_le_add_of_near e1
  have a2 := abs_le_add_of_near e2
  have a3 : |b + 32| ≤ |b| + 32 := le_trans (abs_add _ _) (by norm_num)
  rw [hx9] at a1
  rw [ha5] at a2
  have hx := abs_nonneg x
  have t1 := abs_le.mp e1
  have t2 := abs_le.mp e2
  have t3 := abs_le.mp e3
  norm_num at *
  rw [abs_le]
  constructor <;> linarith

theorem chain_round_trip (x a b d e f g η : ℚ) (hη : η ≤ 1 / 2 ^ 60)
    (e1 : |a - x * 9| ≤ |x| * 9 / 2 ^ 53 + η)
    (e2 : |b - a / 5| ≤ |a| / 5 / 2 ^ 53 + η)
    (e3 : |d - (b + 32)| ≤ |b + 32| / 2 ^ 53 + η)
    (e4 : |e - (d - 32)| ≤ |d - 32| / 2 ^ 53 + η)
    (e5 : |f - e * 5| ≤ |e| * 5 / 2 ^ 53 + η)
    (e6 : |g - f / 9| ≤ |f| / 9 / 2 ^ 53 + η) :
    |g - x| ≤ |x| / 2 ^ 50 + 1 / 2 ^ 48 := by
  have hx9 : |x * 9| = |x| * 9 := by rw [abs_mul]; norm_num
  have ha5 : |a / 5| = |a| / 5 := by rw [abs_div]; norm_num
  have he5 : |e * 5| = |e| * 5 := by rw [abs_mul]; norm_num
  have hf9 : |f / 9| = |f| / 9 := by rw [abs_div]; norm_num
  have a1 := abs_le_add_of_near e1
  have a2 := abs_le_add_of_near e2
  have a3 : |b + 32| ≤ |b| + 32 := le_trans (abs_add _ _) (by norm_num)
  have a4 := abs_le_add_of_near e3
  -- d - 32 is close to b
  have a5 : |d - 32| ≤ |b| + (|b + 32| / 2 ^ 53 + η) := by
    have : |d - 32 - b| ≤ |b + 32| / 2 ^ 53 + η := by
      have : d - 32 - b = d - (b + 32) := by ring
      rw [this]; exact e3
    exact abs_le_add_of_near this
  have a6 := abs_le_add_of_near e4
  have a7 := abs_le_add_of_near e5
  rw [hx9] at a1
  rw [ha5] at a2
  rw [he5] at a7
  have hx := abs_nonneg x
  have t1 := abs_le.mp e1
  have t2 := abs_le.mp e2
  have t3 := abs_le.mp e3
  have t4 := abs_le.mp e4
  have t5 := abs_le.mp e5
  have t6 := abs_le.mp e6
  norm_num at *
  rw [abs_le]
  constructor <;> linarith

theorem chain_kelvin (k K a b η : ℚ) (hη : η ≤ 1 / 2 ^ 60)
    (hK0 : 0 ≤ K) (hK : K ≤ 274)
    (e1 : |a - (k - K)| ≤ |k - K| / 2 ^ 53 + η)
    (e2 : |b - (a + K)| ≤ |a + K| / 2 ^ 53 + η) :
    |b - k| ≤ |k| / 2 ^ 51 + 1 / 2 ^ 44 := by
  have a1 : |k - K| ≤ |k| + K := by
    have := abs_sub k K
    rw [abs_of_nonneg hK0] at this
    exact this
  have a2 : |a + K| ≤ |k| + (|k - K| / 2 ^ 53 + η) := by
    have : |a + K - k| ≤ |k - K| / 2 ^ 53 + η := by
      have : a + K - k = a - (k - K) := by ring
      rw [this]; exact e1
    exact abs_le_add_of_near this
  have hx := abs_nonneg k
  have t1 := abs_le.mp e1
  have t2 := abs_le.mp e2
  norm_num at *
  rw [abs_le]
  constructor <;> linarith

theorem chain_shift (c K K' r η : ℚ) (hη : η ≤ 1 / 2 ^ 60)
    (hK0 : 0 ≤ K) (hK : K ≤ 274) (hKK : |K - K'| ≤ 1 / 2 ^ 45)
    (e1 : |r - (c + K)| ≤ |c + K| / 2 ^ 53 + η) :
    |r - (c + K')| ≤ |c| / 2 ^ 53 + 1 / 2 ^ 43 := by
  have a1 : |c + K| ≤ |c| + K := by
    have := abs_add c K
    rw [abs_of_nonneg hK0] at this
    exact this
  have hx := abs_nonneg c
  have t1 := abs_le.mp e1
  have t2 := abs_le.mp hKK
  norm_num at *
  rw [abs_le]
  constructor <;> linarith

theorem chain_shift_sub (k K K' r η : ℚ) (hη : η ≤ 1 / 2 ^ 60)
    (hK0 : 0 ≤ K) (hK : K ≤ 274) (hKK : |K - K'| ≤ 1 / 2 ^ 45)
    (e1 : |r - (k - K)| ≤ |k - K| / 2 ^ 53 + η) :
    |r - (k - K')| ≤ |k| / 2 ^ 53 + 1 / 2 ^ 43 := by
  have a1 : |k - K| ≤ |k| + K := by
    have := abs_sub k K
    rw [abs_of_nonneg hK0] at this
    exact this
  have hx := abs_nonneg k
  have t1 := abs_le.mp e1
  have t2 := abs_le.mp hKK
  norm_num at *
  rw [abs_le]
  constructor <;> linarith

theorem nine_lit : (9.0 : double).isFinite = true ∧ (9.0 : double).toRat = 9 := by decide!

theorem five_lit : (5.0 : double).isFinite = true ∧ (5.0 : double).toRat = 5 := by decide!

theorem thirtytwo_lit : (32.0 : double).isFinite = true ∧ (32.0 : double).toRat = 32 := by decide!

theorem kelvin_lit : (273.15 : double).isFinite = true
    ∧ (273.15 : double).toRat = 2402652809016115 / 8796093022208 := by decide!

theorem eta_le : (1 : ℚ) / 2 ^ 1075 ≤ 1 / 2 ^ 60 :=
  one_div_le_one_div_of_le (by positivity) (pow_le_pow_right₀ (by norm_num) (by norm_num))

theorem max_lt_threshold : (2 : ℚ) ^ 1024 - 2 ^ 971 + 2 ^ 900 ≤ 2 ^ 1024 - 2 ^ 970 := by
  norm_num

theorem abs_toRat_le_max (d : double) (h : d.isFinite = true) :
    |d.toRat| ≤ 2 ^ 1024 - 2 ^ 971 := by
  rw [double.abs_toRat]
  exact double.mag_le_max d h

/-- The three rounded operations of `CelsiusToFahrenheit`, each within half a unit in the
last place of the exact operation on the previous result. -/
theorem CelsiusToFahrenheit_steps (c : double) (hc : c.isFinite = true)
    (hr : |c.toRat| * 9 < 2 ^ 1024 - 2 ^ 970) :
    ∃ a b : ℚ, (CelsiusToFahrenheit c).isFinite = true
      ∧ |a - c.toRat * 9| ≤ |c.toRat| * 9 / 2 ^ 53 + 1 / 2 ^ 1075
      ∧ |b - a / 5| ≤ |a| / 5 / 2 ^ 53 + 1 / 2 ^ 1075
      ∧ |(CelsiusToFahrenheit c).toRat - (b + 32)| ≤ |b + 32| / 2 ^ 53 + 1 / 2 ^ 1075 := by
  have key := max_lt_threshold
  have hbig : (64 : ℚ) ≤ 2 ^ 900 := by norm_num
  have h9 : |c.toRat * (9.0 : double).toRat| = |c.toRat| * 9 := by
    rw [nine_lit.2, abs_mul]; norm_num
  obtain ⟨f1, e1⟩ := double.mul_spec c 9.0 hc nine_lit.1 (by rw [h9]; exact hr)
  rw [h9, nine_lit.2] at e1
  have m1 := abs_toRat_le_max _ f1
  have h5 : |(c * 9.0).toRat / (5.0 : double).toRat| = |(c * 9.0).toRat| / 5 := by
    rw [five_lit.2, abs_div]; norm_num
  obtain ⟨f2, e2⟩ := double.div_spec (c * 9.0) 5.0 f1 five_lit.1 (by rw [five_lit.2]; norm_num)
    (by rw [h5]; have := abs_nonneg (c * 9.0).toRat; linarith)
  rw [h5, five_lit.2] at e2
  have m2 := abs_toRat_le_max _ f2
  have h32 : |(c * 9.0 / 5.0).toRat + (32.0 : double).toRat| ≤ |(c * 9.0 / 5.0).toRat| + 32 := by
    rw [thirtytwo_lit.2]
    exact le_trans (abs_add _ _) (by norm_num)
  obtain ⟨f3, e3⟩ := double.add_spec (c * 9.0 / 5.0) 32.0 f2 thirtytwo_lit.1 (by linarith)
  rw [thirtytwo_lit.2] at e3
  exact ⟨_, _, f3, e1, e2, e3⟩

/-- The function `CelsiusToFahrenheit` on a finite value whose product with 9 stays below
the overflow threshold: the result is finite and close to the exact `c * 9 / 5 + 32`. -/
theorem CelsiusToFahrenheit_near (c : double) (hc : c.isFinite = true)
    (hr : |c.toRat| * 9 < 2 ^ 1024 - 2 ^ 970) :
    (CelsiusToFahrenheit c).isFinite = true
      ∧ |(CelsiusToFahrenheit c).toRat - (c.toRat * 9 / 5 + 32)|
          ≤ |c.toRat| / 2 ^ 50 + 1 / 2 ^ 47 := by
  obtain ⟨a, b, f3, e1, e2, e3⟩ := CelsiusToFahrenheit_steps c hc hr
  exact ⟨f3, chain_forward _ a b _ _ eta_le e1 e2 e3⟩

/-- The round trip through Fahrenheit on a finite value whose product with 9 is at most
`2 ^ 1024 - 2 ^ 975`:
every intermediate result is finite and the final one is close to the input. -/
theorem round_trip_near (c : double) (hc : c.isFinite = true)
    (hr : |c.toRat| * 9 ≤ 2 ^ 1024 - 2 ^ 975) :
    (FahrenheitToCelsius (CelsiusToFahrenheit c)).isFinite = true
      ∧ |(FahrenheitToCelsius (CelsiusToFahrenheit c)).toRat - c.toRat|
          ≤ |c.toRat| / 2 ^ 50 + 1 / 2 ^ 48 := by
  have key := max_lt_threshold
  have hbig : (64 : ℚ) ≤ 2 ^ 900 := by norm_num
  have hr9 : |c.toRat| * 9 < 2 ^ 1024 - 2 ^ 970 := by
    have : (2 : ℚ) ^ 1024 - 2 ^ 975 < 2 ^ 1024 - 2 ^ 970 := by norm_num
    linarith
  obtain ⟨a, b, f3, e1, e2, e3⟩ := CelsiusToFahrenheit_steps c hc hr9
  have m3 := abs_toRat_le_max _ f3
  -- fahrenheit - 32.0
  have h4 : |(CelsiusToFahrenheit c).toRat - (32.0 : double).toRat|
      ≤ |(CelsiusToFahrenheit c).toRat| + 32 := by
    rw [thirtytwo_lit.2]
    exact le_trans (abs_sub _ _) (by norm_num)
  obtain ⟨f4, e4⟩ := double.sub_spec (CelsiusToFahrenheit c) 32.0 f3 thirtytwo_lit.1 (by linarith)
  rw [thirtytwo_lit.2] at e4
  -- magnitudes along the way, to keep the product with 5 below the threshold
  have a1 := abs_le_add_of_near e1
  have a2 := abs_le_add_of_near e2
  have a3 : |b + 32| ≤ |b| + 32 := le_trans (abs_add _ _) (by norm_num)
  have a5 : |(CelsiusToFahrenheit c).toRat - 32| ≤ |b| + (|b + 32| / 2 ^ 53 + 1 / 2 ^ 1075) := by
    have : |(CelsiusToFahrenheit c).toRat - 32 - b| ≤ |b + 32| / 2 ^ 53 + 1 / 2 ^ 1075 := by
      have : (CelsiusToFahrenheit c).toRat - 32 - b
          = (CelsiusToFahrenheit c).toRat - (b + 32) := by ring
      rw [this]; exact e3
    exact abs_le_add_of_near this
  have a6 := abs_le_add_of_near e4
  have hx9 : |c.toRat * 9| = |c.toRat| * 9 := by rw [abs_mul]; norm_num
  have ha5 : |a / 5| = |a| / 5 := by rw [abs_div]; norm_num
  rw [hx9] at a1
  rw [ha5] at a2
  have h5 : |(CelsiusToFahrenheit c - 32.0).toRat * (5.0 : double).toRat|
      = |(CelsiusToFahrenheit c - 32.0).toRat| * 5 := by
    rw [five_lit.2, abs_mul]; norm_num
  have hmag : |(CelsiusToFahrenheit c - 32.0).toRat| * 5 < 2 ^ 1024 - 2 ^ 970 := by
    have eta := eta_le
    have hx := abs_nonneg c.toRat
    have t1 : (2 : ℚ) ^ 1024 = 2 ^ 970 * 18014398509481984 := by norm_num
    have t2 : (2 : ℚ) ^ 975 = 2 ^ 970 * 32 := by norm_num
    have t3 : (2 : ℚ) ^ 900 ≤ 2 ^ 970 := by norm_num
    have e53 : (2 : ℚ) ^ 53 = 9007199254740992 := by norm_num
    have e60 : (2 : ℚ) ^ 60 = 1152921504606846976 := by norm_num
    rw [e53] at a1 a2 a5 a6
    rw [e60] at eta
    linarith
  obtain ⟨f5, e5⟩ := double.mul_spec (CelsiusToFahrenheit c - 32.0) 5.0 f4 five_lit.1
    (by rw [h5]; exact hmag)
  rw [h5, five_lit.2] at e5
  have m5 := abs_toRat_le_max _ f5
  have h9 : |((CelsiusToFahrenheit c - 32.0) * 5.0).toRat / (9.0 : double).toRat|
      = |((CelsiusToFahrenheit c - 32.0) * 5.0).toRat| / 9 := by
    rw [nine_lit.2, abs_div]; norm_num
  obtain ⟨f6, e6⟩ := double.div_spec ((CelsiusToFahrenheit c - 32.0) * 5.0) 9.0 f5 nine_lit.1
    (by rw [nine_lit.2]; norm_num)
    (by rw [h9]; have := abs_nonneg ((CelsiusToFahrenheit c - 32.0) * 5.0).toRat; linarith)
  rw [h9, nine_lit.2] at e6
  exact ⟨f6, chain_round_trip _ a b _ _ _ _ _ eta_le e1 e2 e3 e4 e5 e6⟩

/-- The round trip through Celsius on any finite Kelvin value. -/
theorem kelvin_round_trip_near (k : double) (hk : k.isFinite = true) :
    (CelsiusToKelvin (KelvinToCelsius k)).isFinite = true
      ∧ |(CelsiusToKelvin (KelvinToCelsius k)).toRat - k.toRat|
          ≤ |k.toRat| / 2 ^ 51 + 1 / 2 ^ 44 := by
  have key := max_lt_threshold
  have hbig : (1000 : ℚ) ≤ 2 ^ 900 := by norm_num
  have hK := kelvin_lit.2
  have hK0 : (0 : ℚ) ≤ (273.15 : double).toRat := by rw [hK]; norm_num
  have hK1 : (273.15 : double).toRat ≤ 274 := by rw [hK]; norm_num
  have m0 := abs_toRat_le_max _ hk
  have h1 : |k.toRat - (273.15 : double).toRat| ≤ |k.toRat| + 274 := by
    have := abs_sub k.toRat (273.15 : double).toRat
    rw [abs_of_nonneg hK0] at this
    linarith
  obtain ⟨f1, e1⟩ := double.sub_spec k 273.15 hk kelvin_lit.1 (by linarith)
  have m1 := abs_toRat_le_max _ f1
  have h2 : |(k - 273.15).toRat + (273.15 : double).toRat| ≤ |(k - 273.15).toRat| + 274 := by
    have := abs_add (k - 273.15).toRat (273.15 : double).toRat
    rw [abs_of_nonneg hK0] at this
    linarith
  obtain ⟨f2, e2⟩ := double.add_spec (k - 273.15) 273.15 f1 kelvin_lit.1 (by linarith)
  exact ⟨f2, chain_kelvin _ _ _ _ _ eta_le hK0 hK1 e1 e2⟩

theorem kelvin_lit_near : |(273.15 : double).toRat - 27315 / 100| ≤ 1 / 2 ^ 45 := by
  rw [kelvin_lit.2, abs_le]
  constructor <;> norm_num

/-- The function `CelsiusToKelvin` on any finite value: finite and close to the exact shift. -/
theorem CelsiusToKelvin_near (c : double) (hc : c.isFinite = true) :
    (CelsiusToKelvin c).isFinite = true
      ∧ |(CelsiusToKelvin c).toRat - (c.toRat + 27315 / 100)|
          ≤ |c.toRat| / 2 ^ 53 + 1 / 2 ^ 43 := by
  have key := max_lt_threshold
  have hbig : (1000 : ℚ) ≤ 2 ^ 900 := by norm_num
  have hK := kelvin_lit.2
  have hK0 : (0 : ℚ) ≤ (273.15 : double).toRat := by rw [hK]; norm_num
  have hK1 : (273.15 : double).toRat ≤ 274 := by rw [hK]; norm_num
  have m0 := abs_toRat_le_max _ hc
  have h1 : |c.toRat + (273.15 : double).toRat| ≤ |c.toRat| + 274 := by
    have := abs_add c.toRat (273.15 : double).toRat
    rw [abs_of_nonneg hK0] at this
    linarith
  obtain ⟨f1, e1⟩ := double.add_spec c 273.15 hc kelvin_lit.1 (by linarith)
  exact ⟨f1, chain_shift _ _ _ _ _ eta_le hK0 hK1 kelvin_lit_near e1⟩

/-- The function `KelvinToCelsius` on any finite value: finite and close to the exact shift. -/
theorem KelvinToCelsius_near (k : double) (hk : k.isFinite = true) :
    (KelvinToCelsius k).isFinite = true
      ∧ |(KelvinToCelsius k).toRat - (k.toRat - 27315 / 100)|
          ≤ |k.toRat| / 2 ^ 53 + 1 / 2 ^ 43 := by
  have key := max_lt_threshold
  have hbig : (1000 : ℚ) ≤ 2 ^ 900 := by norm_num
  have hK := kelvin_lit.2
  have hK0 : (0 : ℚ) ≤ (273.15 : double).toRat := by rw [hK]; norm_num
  have hK1 : (273.15 : double).toRat ≤ 274 := by rw [hK]; norm_num
  have m0 := abs_toRat_le_max _ hk
  have h1 : |k.toRat - (273.15 : double).toRat| ≤ |k.toRat| + 274 := by
    have := abs_sub k.toRat (273.15 : double).toRat
    rw [abs_of_nonneg hK0] at this
    linarith
  obtain ⟨f1, e1⟩ := double.sub_spec k 273.15 hk kelvin_lit.1 (by linarith)
  exact ⟨f1, chain_shift_sub _ _ _ _ _ eta_le hK0 hK1 kelvin_lit_near e1⟩

/-- Whenever the text and its NUL fit the 256-byte array, `main` returns 1. -/
theorem main_returns_one_when_fits (atof : List Char → double) (argv1 : List Char)
    (h : (conversion (atof argv1) (CelsiusToFahrenheit (atof argv1))).length + 1 ≤ 256) :
    ∃ out, (myapp.main atof argv1).ending = Ending.returned 1 out := by
  simp only [myapp.main, withBuffer_fits _ _ _ h]
  exact ⟨_, rfl⟩

theorem main_prints (atof : List Char → double) (argv1 : List Char)
    (h : (conversion (atof argv1) (CelsiusToFahrenheit (atof argv1))).length + 1 ≤ 256) :
    (myapp.main atof argv1).ending = Ending.returned 1
      ("Running baselib code CelsiusToFahrenheit(".toList ++ fmt_lf (atof argv1)
        ++ "): ".toList ++ fmt_lf (CelsiusToFahrenheit (atof argv1)) ++ "\n".toList
        ++ "kelvinToString: ".toList
        ++ conversion (atof argv1) (CelsiusToFahrenheit (atof argv1)) ++ "\n".toList) := by
  simp only [myapp.main, withBuffer_fits _ _ _ h]
  simp [printf, formatted]

/-- Claim C1, counterexample: 5e307 is finite, yet `c * 9.0` overflows and the round trip
returns plus infinity; at 0.1 the round trip returns 0.09999999999999984, a different
double. -/
theorem fahrenheit_round_trip_fails :
    (5e307 : double).isFinite = true
      ∧ FahrenheitToCelsius (CelsiusToFahrenheit 5e307) = double.inf false
      ∧ FahrenheitToCelsius (CelsiusToFahrenheit 0.1) = 0.09999999999999984
      ∧ (0.09999999999999984 : double) ≠ 0.1 := by
  decide!

/-- Claim C1, amended: for a finite `c` with `9 * |c| ≤ 2 ^ 1024 - 2 ^ 975` (magnitudes up
to about 1.997e307) the round trip through Fahrenheit is finite and differs from `c` by at
most `|c| / 2 ^ 50 + 1 / 2 ^ 48`. -/
theorem fahrenheit_round_trip (c : double) (hc : c.isFinite = true)
    (hr : |c.toRat| * 9 ≤ 2 ^ 1024 - 2 ^ 975) :
    (FahrenheitToCelsius (CelsiusToFahrenheit c)).isFinite = true
      ∧ |(FahrenheitToCelsius (CelsiusToFahrenheit c)).toRat - c.toRat|
          ≤ |c.toRat| / 2 ^ 50 + 1 / 2 ^ 48 :=
  round_trip_near c hc hr

/-- Witness of `fahrenheit_round_trip` at 0.1. -/
theorem fahrenheit_round_trip_witness :
    (FahrenheitToCelsius (CelsiusToFahrenheit 0.1)).isFinite = true
      ∧ |(FahrenheitToCelsius (CelsiusToFahrenheit 0.1)).toRat - (0.1 : double).toRat|
          ≤ |(0.1 : double).toRat| / 2 ^ 50 + 1 / 2 ^ 48 :=
  fahrenheit_round_trip 0.1 (by decide!) (by decide!)

/-- Claim C2, counterexample: the round trip of the Kelvin value 0.1 returns
0.10000000000002274, a different double, and the round trip of 1e-20 returns 0.0. -/
theorem kelvin_round_trip_fails :
    CelsiusToKelvin (KelvinToCelsius 0.1) = 0.10000000000002274
      ∧ (0.10000000000002274 : double) ≠ 0.1
      ∧ CelsiusToKelvin (KelvinToCelsius 1e-20) = 0.0
      ∧ (0.0 : double) ≠ 1e-20 := by
  decide!

/-- Claim C2, amended: for every finite `k` the round trip through Celsius is finite and
differs from `k` by at most `|k| / 2 ^ 51 + 1 / 2 ^ 44`. -/
theorem kelvin_round_trip (k : double) (hk : k.isFinite = true) :
    (CelsiusToKelvin (KelvinToCelsius k)).isFinite = true
      ∧ |(CelsiusToKelvin (KelvinToCelsius k)).toRat - k.toRat|
          ≤ |k.toRat| / 2 ^ 51 + 1 / 2 ^ 44 :=
  kelvin_round_trip_near k hk

/-- Witness of `kelvin_round_trip` at 0.1. -/
theorem kelvin_round_trip_witness :
    (CelsiusToKelvin (KelvinToCelsius 0.1)).isFinite = true
      ∧ |(CelsiusToKelvin (KelvinToCelsius 0.1)).toRat - (0.1 : double).toRat|
          ≤ |(0.1 : double).toRat| / 2 ^ 51 + 1 / 2 ^ 44 :=
  kelvin_round_trip 0.1 (by decide!)

/-- Claim C3, counterexample: at 1e22 the code returns 18000000000000000000000 where
`c * 9 / 5 + 32` is 18000000000000000000032, and at the finite 5e307 it returns plus
infinity. -/
theorem celsius_to_fahrenheit_rounds :
    (1e22 : double).toRat = 10000000000000000000000
      ∧ (CelsiusToFahrenheit 1e22).toRat = 18000000000000000000000
      ∧ (1e22 : double).toRat * 9 / 5 + 32 = 18000000000000000000032
      ∧ (5e307 : double).isFinite = true
      ∧ CelsiusToFahrenheit 5e307 = double.inf false := by
  decide!

/-- Claim C3, amended: for a finite `c` whose product with 9 does not overflow,
`CelsiusToFahrenheit c` is finite and within `|c| / 2 ^ 50 + 1 / 2 ^ 47` of
`c * 9 / 5 + 32`; it sends 0.0 to 32.0 and 100.0 to 212.0 exactly. -/
theorem celsius_to_fahrenheit_formula (c : double) (hc : c.isFinite = true)
    (hr : |c.toRat| * 9 < 2 ^ 1024 - 2 ^ 970) :
    ((CelsiusToFahrenheit c).isFinite = true
        ∧ |(CelsiusToFahrenheit c).toRat - (c.toRat * 9 / 5 + 32)|
            ≤ |c.toRat| / 2 ^ 50 + 1 / 2 ^ 47)
      ∧ CelsiusToFahrenheit 0.0 = 32.0 ∧ CelsiusToFahrenheit 100.0 = 212.0 :=
  ⟨CelsiusToFahrenheit_near c hc hr, by decide!, by decide!⟩

/-- Witness of `celsius_to_fahrenheit_formula` at 1e22. -/
theorem celsius_to_fahrenheit_formula_witness :
    |(CelsiusToFahrenheit 1e22).toRat - ((1e22 : double).toRat * 9 / 5 + 32)|
      ≤ |(1e22 : double).toRat| / 2 ^ 50 + 1 / 2 ^ 47 :=
  (celsius_to_fahrenheit_formula 1e22 (by decide!) (by decide!)).1.2

/-- Claim C4, counterexample: `CelsiusToKelvin 1e17` is 100000000000000272, not
1e17 + 273.15; `KelvinToCelsius 300.0` is 26.850000000000023, not 26.85; and the double
273.15 is not the number 27315/100. -/
theorem kelvin_shift_rounds :
    (1e17 : double).toRat = 100000000000000000
      ∧ (CelsiusToKelvin 1e17).toRat = 100000000000000272
      ∧ KelvinToCelsius 300.0 = 26.850000000000023
      ∧ (26.850000000000023 : double) ≠ 26.85
      ∧ (273.15 : double).toRat ≠ 27315 / 100 := by
  decide!

/-- Claim C4, amended: `CelsiusToKelvin 0.0` is the double 273.15 and
`KelvinToCelsius 273.15` is 0.0; on every finite value the two conversions are finite and
within `|x| / 2 ^ 53 + 1 / 2 ^ 43` of the exact shifts `x + 273.15` and `x - 273.15`. -/
theorem kelvin_shift_values (x : double) (hx : x.isFinite = true) :
    CelsiusToKelvin 0.0 = 273.15 ∧ KelvinToCelsius 273.15 = 0.0
      ∧ ((CelsiusToKelvin x).isFinite = true
          ∧ |(CelsiusToKelvin x).toRat - (x.toRat + 27315 / 100)|
              ≤ |x.toRat| / 2 ^ 53 + 1 / 2 ^ 43)
      ∧ ((KelvinToCelsius x).isFinite = true
          ∧ |(KelvinToCelsius x).toRat - (x.toRat - 27315 / 100)|
              ≤ |x.toRat| / 2 ^ 53 + 1 / 2 ^ 43) :=
  ⟨by decide!, by decide!, CelsiusToKelvin_near x hx, KelvinToCelsius_near x hx⟩

/-- Witness of `kelvin_shift_values` at 1e17. -/
theorem kelvin_shift_values_witness :
    |(CelsiusToKelvin 1e17).toRat - ((1e17 : double).toRat + 27315 / 100)|
      ≤ |(1e17 : double).toRat| / 2 ^ 53 + 1 / 2 ^ 43 :=
  (kelvin_shift_values 1e17 (by decide!)).2.2.1.2

/-- Claim C5, counterexample: for a NaN the text is "nan celsius is nan kelvin" and for
the finite 5e307 the second value is rendered "inf"; neither is a fixed-point rendering
with six digits after a point. -/
theorem conversion_text_not_fixed_point :
    conversion (double.nan false) (CelsiusToFahrenheit (double.nan false))
        = "nan celsius is nan kelvin".toList
      ∧ (5e307 : double).isFinite = true
      ∧ fmt_lf (CelsiusToFahrenheit 5e307) = "inf".toList
      ∧ '.' ∉ "nan celsius is nan kelvin".toList := by
  decide!

/-- Claim C5, amended: for every `c` and `k`, `conversion c k` stores the rendering of
`c`, the text " celsius is ", the rendering of `k` and the text " kelvin"; the rendering
of a finite value is a minus sign when the sign bit is set, at least one digit, a point
and exactly six digits, and the number its digits denote is within half a millionth of the
magnitude of the value; a NaN is rendered "nan" and an infinity "inf" after the same
sign; for 0.0 and 273.15 the text is "0.000000 celsius is 273.150000 kelvin". -/
theorem conversion_text :
    (∀ c k : double,
        conversion c k = fmt_lf c ++ " celsius is ".toList ++ fmt_lf k ++ " kelvin".toList)
      ∧ (∀ x : double, x.isFinite = true → ∃ whole frac : List Char,
          fmt_lf x = (if x.sign then ['-'] else []) ++ whole ++ '.' :: frac
          ∧ whole ≠ [] ∧ frac.length = 6
          ∧ (∀ d ∈ whole ++ frac, d.isDigit = true)
          ∧ |(digitsValue (whole ++ frac) : ℚ) / 1000000 - x.mag| ≤ 1 / 2000000)
      ∧ (∀ x : double, x.isNaN = true →
          fmt_lf x = (if x.sign then ['-'] else []) ++ "nan".toList)
      ∧ (∀ x : double, x.isInf = true →
          fmt_lf x = (if x.sign then ['-'] else []) ++ "inf".toList)
      ∧ conversion 0.0 273.15 = "0.000000 celsius is 273.150000 kelvin".toList
      ∧ conversion (-0.0) 32.0 = "-0.000000 celsius is 32.000000 kelvin".toList := by
  refine ⟨conversion_eq, fmt_lf_fixed_point, fun x h => ?_, fun x h => ?_, by decide!,
    by decide!⟩
  · simp [fmt_lf, h]
  · have hn : x.isNaN = false := by
      simp only [double.isInf, Bool.and_eq_true, beq_iff_eq] at h
      simp [double.isNaN, h.2]
    simp [fmt_lf, h, hn]

/-- Witness of `conversion_text` at the double 273.15. -/
theorem conversion_text_witness :
    ∃ whole frac : List Char,
      fmt_lf 273.15 = (if (273.15 : double).sign then ['-'] else []) ++ whole ++ '.' :: frac
      ∧ whole ≠ [] ∧ frac.length = 6
      ∧ (∀ d ∈ whole ++ frac, d.isDigit = true)
      ∧ |(digitsValue (whole ++ frac) : ℚ) / 1000000 - (273.15 : double).mag| ≤ 1 / 2000000 :=
  conversion_text.2.1 273.15 (by decide!)

/-- Claim C6, counterexample: at 1e22 the slot labelled "kelvin" shows
18000000000000000000000.000000 while `c * 9 / 5 + 32` is 18000000000000000000032, and at
the finite 5e307 it shows "inf". -/
theorem kelvin_slot_rounds :
    conversion 1e22 (CelsiusToFahrenheit 1e22)
        = ("10000000000000000000000.000000 celsius is "
            ++ "18000000000000000000000.000000 kelvin").toList
      ∧ (1e22 : double).toRat * 9 / 5 + 32 = 18000000000000000000032
      ∧ (5e307 : double).isFinite = true
      ∧ fmt_lf (CelsiusToFahrenheit 5e307) = "inf".toList := by
  decide!

/-- Claim C6, amended: both callers store `conversion c (CelsiusToFahrenheit c)` through
`buf`, and `main` prints it after "kelvinToString: " when it fits its array; the number
in the slot labelled "kelvin" is `CelsiusToFahrenheit c`, which for a finite `c` whose
product with 9 does not overflow is within `|c| / 2 ^ 50 + 1 / 2 ^ 47` of
`c * 9 / 5 + 32`; for 100.0 the text is "100.000000 celsius is 212.000000 kelvin", not
the "373.150000" that `CelsiusToKelvin` would give. -/
theorem callers_store_fahrenheit_text :
    (∀ (atof : List Char → double) (argv1 : List Char),
        (myapp.main atof argv1).buf
          = some (conversion (atof argv1) (CelsiusToFahrenheit (atof argv1))))
      ∧ (∀ (fd : ℤ) (rd : Option double), ¬ fd < 0 →
        (harness1.main fd rd).buf
          = some (conversion (rd.getD 0.0) (CelsiusToFahrenheit (rd.getD 0.0))))
      ∧ (∀ (atof : List Char → double) (argv1 : List Char),
        (conversion (atof argv1) (CelsiusToFahrenheit (atof argv1))).length + 1 ≤ 256 →
        (myapp.main atof argv1).ending = Ending.returned 1
          ("Running baselib code CelsiusToFahrenheit(".toList ++ fmt_lf (atof argv1)
            ++ "): ".toList ++ fmt_lf (CelsiusToFahrenheit (atof argv1)) ++ "\n".toList
            ++ "kelvinToString: ".toList
            ++ conversion (atof argv1) (CelsiusToFahrenheit (atof argv1)) ++ "\n".toList))
      ∧ (∀ c : double, c.isFinite = true → |c.toRat| * 9 < 2 ^ 1024 - 2 ^ 970 →
        (CelsiusToFahrenheit c).isFinite = true
          ∧ |(CelsiusToFahrenheit c).toRat - (c.toRat * 9 / 5 + 32)|
              ≤ |c.toRat| / 2 ^ 50 + 1 / 2 ^ 47)
      ∧ myapp.main (fun _ => 100.0) "100.0".toList
          = { buf := some "100.000000 celsius is 212.000000 kelvin".toList
              ending := Ending.returned 1
                ("Running baselib code CelsiusToFahrenheit(100.000000): 212.000000\n"
                  ++ "kelvinToString: 100.000000 celsius is 212.000000 kelvin\n").toList }
      ∧ (harness1.main 3 (some 100.0)).buf
          = some "100.000000 celsius is 212.000000 kelvin".toList
      ∧ conversion 100.0 (CelsiusToKelvin 100.0)
          = "100.000000 celsius is 373.150000 kelvin".toList := by
  refine ⟨fun atof argv1 => rfl, fun fd rd h => ?_, main_prints, CelsiusToFahrenheit_near,
    by decide!, by decide!, by decide!⟩
  cases rd <;> simp [harness1.main, h, withBuffer]

/-- Witness of `callers_store_fahrenheit_text`: the harness on a file holding 100.0. -/
theorem callers_store_fahrenheit_text_witness :
    (harness1.main 3 (some 100.0)).buf
      = some (conversion ((some (100.0 : double)).getD 0.0)
          (CelsiusToFahrenheit ((some (100.0 : double)).getD 0.0))) :=
  callers_store_fahrenheit_text.2.1 3 (some 100.0) (by decide)

/-- Claim C7 at the failing input: when `atof` reads the argument "1e300" as the double
1e300, `main` stores 635 characters and a NUL in its 256-byte array, so the run has no
defined behaviour from there on and does not end by returning 1. -/
theorem main_exit_code_undefined (atof : List Char → double)
    (h : atof "1e300".toList = 1e300) :
    (myapp.main atof "1e300".toList).buf.map List.length = some 635
      ∧ (myapp.main atof "1e300".toList).ending = Ending.undefined := by
  have hlen : (conversion 1e300 (CelsiusToFahrenheit 1e300)).length = 635 := by decide!
  simp only [myapp.main, h]
  exact ⟨by simp [withBuffer_buf, hlen], withBuffer_undefined _ _ _ (by omega)⟩

/-- Witness of `main_exit_code_undefined`: an `atof` that reads "1e300" as the double
1e300 and everything else as 0.0. -/
theorem main_exit_code_undefined_witness :
    (myapp.main (fun s => if s = "1e300".toList then 1e300 else 0.0) "1e300".toList).ending
      = Ending.undefined :=
  (main_exit_code_undefined (fun s => if s = "1e300".toList then 1e300 else 0.0)
    (by simp)).2

/-- Claim C8, as the code behaves: the harness returns -1 with nothing printed and
`conversion` not called exactly when `open` fails; in every other run `conversion` stores
more than 16 bytes in `buf` and the run ends without defined behaviour, never by
printing the text and returning 0. A file holding the value 0.0 is such a run. -/
theorem harness_endings (fd : ℤ) (rd : Option double) :
    ((harness1.main fd rd).ending = Ending.returned (-1) [] ↔ fd < 0)
      ∧ (fd < 0 → (harness1.main fd rd).buf = none)
      ∧ (¬ fd < 0 → (harness1.main fd rd).ending = Ending.undefined)
      ∧ harness1.main 3 (some 0.0)
          = { buf := some "0.000000 celsius is 32.000000 kelvin".toList
              ending := Ending.undefined } := by
  have hund : ¬ fd < 0 → (harness1.main fd rd).ending = Ending.undefined := by
    intro h
    simp only [harness1.main, h, if_false]
    apply withBuffer_undefined
    have := conversion_length_ge
      (match rd with
        | none => 0.0
        | some v => v)
      (CelsiusToFahrenheit (match rd with
        | none => 0.0
        | some v => v))
    omega
  refine ⟨⟨fun h => ?_, fun h => ?_⟩, fun h => ?_, hund, by decide!⟩
  · by_contra hfd
    rw [hund hfd] at h
    exact Ending.noConfusion h
  · simp [harness1.main, h]
  · simp [harness1.main, h]

/-- Claim C9: the fixed text of the format is 19 characters; for every `c` (finite,
infinite or NaN) the text `conversion c (CelsiusToFahrenheit c)` with its NUL is longer
than 16 bytes; so in every run of the harness that reaches `conversion` the store
overruns the 16-byte `buf`. -/
theorem harness_buffer_too_small :
    (" celsius is ".toList ++ " kelvin".toList).length = 19
      ∧ (∀ c : double, 16 < (conversion c (CelsiusToFahrenheit c)).length + 1)
      ∧ (∀ (fd : ℤ) (rd : Option double), ¬ fd < 0 →
          ∃ text, (harness1.main fd rd).buf = some text ∧ 16 < text.length + 1
            ∧ (harness1.main fd rd).ending = Ending.undefined)
      ∧ (harness1.main 3 (some 0.0)).buf.map List.length = some 36 := by
  have hlen : ∀ c : double, 16 < (conversion c (CelsiusToFahrenheit c)).length + 1 := by
    intro c
    have := conversion_length_ge c (CelsiusToFahrenheit c)
    omega
  refine ⟨by decide, hlen, fun fd rd h => ?_, by decide!⟩
  simp only [harness1.main, h, if_false]
  exact ⟨_, withBuffer_buf _ _ _, hlen _, withBuffer_undefined _ _ _ (hlen _)⟩

/-- Claim C10: for the finite double 1e300 the text `conversion c (CelsiusToFahrenheit c)`
with its NUL is longer than the 256 bytes of the array in `main`, because `%lf` prints
every digit of the integer part: a finite value of magnitude at least `10 ^ n` is
rendered in at least `n + 8` characters. -/
theorem main_buffer_too_small :
    (∃ c : double, c.isFinite = true ∧ 256 < (conversion c (CelsiusToFahrenheit c)).length + 1)
      ∧ (conversion 1e300 (CelsiusToFahrenheit 1e300)).length + 1 = 636
      ∧ (∀ (x : double) (n : ℕ), x.isFinite = true → (10 : ℚ) ^ n ≤ x.mag →
          n + 8 ≤ (fmt_lf x).length)
      ∧ (∀ (atof : List Char → double) (argv1 : List Char), atof argv1 = 1e300 →
          (myapp.main atof argv1).buf = some (conversion 1e300 (CelsiusToFahrenheit 1e300))
            ∧ (myapp.main atof argv1).ending = Ending.undefined) := by
  have hlen : (conversion 1e300 (CelsiusToFahrenheit 1e300)).length = 635 := by decide!
  refine ⟨⟨1e300, by decide!, by omega⟩, by omega,
    fun x n hx h => fmt_lf_length_of_le x hx n h, fun atof argv1 h => ?_⟩
  simp only [myapp.main, h]
  exact ⟨withBuffer_buf _ _ _, withBuffer_undefined _ _ _ (by omega)⟩
